import Mathlib

/-!
Shallow embedding of `unsloth/kernels/cross_entropy_loss.py`.

The Triton kernels are data-parallel over rows (and over chunks / tiles of
the vocabulary dimension); each unit of work is a pure function of its
inputs, so a row is embedded as a `List ℝ` and a kernel as a function on it.
Machine floating point is idealised as exact extended-real arithmetic.  The
`-float("inf")` fill used for masked-out lanes is represented by `⊥` in a
`List EReal` block, and the pre-transform is applied to the whole loaded
block — filler lanes included — exactly as the kernels do it after the
masked load: a softcap maps the `-∞` filler to the finite value
`SOFTCAP * tanh(-∞ / SOFTCAP)` (with `tanh(±∞) = ±1` as in IEEE), which
then participates in the block maximum and in the sum of exponentials; a
`-∞` lane that survives the transform contributes `exp(-∞) = 0` and never
attains the maximum of a block with a finite lane.  An unmasked
out-of-bounds load (the label-logit load) is undefined behaviour on the
device and is embedded as `Option`, with `none` for the out-of-bounds
case.
-/

namespace UnslothCE

/-- Source line 260: `MAX_FUSED_SIZE = 65536`, the per-launch width capacity. -/
def MAX_FUSED_SIZE : ℕ := 65536

/-- The elementwise pre-transform applied to every logit, exactly as the
kernels apply it: `if DO_LOGIT_SCALING: x = LOGIT_SCALE * x` then
`if DO_SOFTCAPPING: x = SOFTCAP * tanh(x / SOFTCAP)`.  The orchestrator
derives the two flags as `logit_scaling != 0` and `logit_softcapping != 0`,
so the flags are folded into the two parameters. -/
noncomputable def preTransform (softcap scale x : ℝ) : ℝ :=
  let x1 := if scale ≠ 0 then scale * x else x
  if softcap ≠ 0 then softcap * Real.tanh (x1 / softcap) else x1

/-- Row maximum, `c = tl.max(logits, 0)`; junk value 0 on an empty row
(the kernels never reduce an empty row for a positive vocab size). -/
noncomputable def listMax : List ℝ → ℝ
  | [] => 0
  | x :: xs => xs.foldl max x

/-- The stable log-sum-exp exactly as both forward kernels compute it:
`c + tl.log(tl.sum(tl.exp(logits - c), 0))` with `c` the row maximum. -/
noncomputable def logsumexp (l : List ℝ) : ℝ :=
  listMax l + Real.log ((l.map (fun x => Real.exp (x - listMax l))).sum)

/-- IEEE `tanh` extended to the `±∞` lane values a loaded block can hold:
`tanh(-∞) = -1`, `tanh(+∞) = 1`, finite lanes as usual. -/
noncomputable def laneTanh (x : EReal) : EReal :=
  if x = ⊥ then ((-1 : ℝ) : EReal)
  else if x = ⊤ then ((1 : ℝ) : EReal)
  else ((Real.tanh x.toReal : ℝ) : EReal)

/-- Division of a block lane by a real scalar, as multiplication by its
reciprocal: this keeps the IEEE sign conventions for `±∞` divided by a
finite nonzero number, and the kernels only ever divide by the nonzero
softcap. -/
noncomputable def laneDiv (x : EReal) (t : ℝ) : EReal := x * ((t⁻¹ : ℝ) : EReal)

/-- The elementwise pre-transform as the kernels apply it to every lane of
a loaded block, the `-∞` filler lanes included (source lines 72-74 and
150-152 transform after the masked load): `if DO_LOGIT_SCALING:
x = LOGIT_SCALE * x` then `if DO_SOFTCAPPING: x = SOFTCAP * tanh(x /
SOFTCAP)`.  In particular an active softcap maps a `-∞` filler lane to a
finite value, which then joins the block reduction. -/
noncomputable def preTransformLane (softcap scale : ℝ) (x : EReal) : EReal :=
  let x1 := if scale ≠ 0 then (scale : EReal) * x else x
  if softcap ≠ 0 then (softcap : EReal) * laneTanh (laneDiv x1 softcap) else x1

/-- The masked block load `tl.load(ptr + col_offsets, mask = col_offsets <
VOCAB_SIZE, other = -inf)` of the single-pass kernel: lane `i` of a block of
`B` lanes holds the logit at column `i` when in range and the `-∞` filler
(`⊥`) otherwise. -/
def loadBlockE (row : List ℝ) (B : ℕ) : List EReal :=
  (List.range B).map (fun i =>
    match row[i]? with
    | some x => Real.toEReal x
    | none => ⊥)

/-- The chunked kernel's block load for chunk `k`: lane `i` reads column
`col_offsets = chunk_idx * BLOCK_SIZE + i`, masked to columns below the
vocab size, `-∞` (`⊥`) elsewhere. -/
def loadChunkE (row : List ℝ) (cap k : ℕ) : List EReal :=
  (List.range cap).map (fun i =>
    match row[k * cap + i]? with
    | some x => Real.toEReal x
    | none => ⊥)

/-- Block maximum `c = tl.max(logits, 0)` over lanes that may be `±∞`;
junk value `⊥` on an empty block (never launched). -/
noncomputable def listMaxE : List EReal → EReal
  | [] => ⊥
  | x :: xs => xs.foldl max x

/-- `tl.exp` of a max-shifted lane, valued in the floats: `exp(-∞) = 0`;
after the shift by the block maximum no lane is `+∞`, so the junk value 0
at `⊤` is never reached. -/
noncomputable def laneExp (x : EReal) : ℝ :=
  if x = ⊥ then 0 else if x = ⊤ then 0 else Real.exp x.toReal

/-- The stable log-sum-exp exactly as both forward kernels compute it on a
loaded block: `c + tl.log(tl.sum(tl.exp(logits - c), 0))` with `c` the
block maximum; the stored float of a finite `c` is `c.toReal`. -/
noncomputable def logsumexpE (block : List EReal) : ℝ :=
  (listMaxE block).toReal
    + Real.log ((block.map (fun x => laneExp (x - listMaxE block))).sum)

/-- The unmasked label-logit load `tl.load(logits_ptr + label_idx)`:
in-bounds columns yield the stored value, anything else is an out-of-bounds
device read, embedded as `none`. -/
def loadLabelLogit (row : List ℝ) (label : ℤ) : Option ℝ :=
  if 0 ≤ label then row[label.toNat]? else none

/-- One row of `_cross_entropy_forward` (source lines 59-90): load the
block padded with `-∞`, pre-transform it, take the stable log-sum-exp;
when the label is not the ignore sentinel `-100`, re-load and re-transform
the single logit at the label column and store `loss = logsumexp - x`,
otherwise store `loss = 0`; the row log-sum-exp is stored alongside.
Returns `(loss, logsumexp)`, or `none` on an out-of-bounds label load. -/
noncomputable def cross_entropy_forward (softcap scale : ℝ) (B : ℕ)
    (row : List ℝ) (label : ℤ) : Option (ℝ × ℝ) :=
  let tblock := (loadBlockE row B).map (preTransformLane softcap scale)
  let L := logsumexpE tblock
  if label ≠ -100 then
    (loadLabelLogit row label).map (fun x => (L - preTransform softcap scale x, L))
  else
    some (0, L)

/-- Source lines 267-268: `div, mod = divmod(vocab_size, MAX_FUSED_SIZE);
n_chunks = div + (mod != 0)`, generalised over the capacity. -/
def nChunks (V cap : ℕ) : ℕ :=
  V / cap + (if V % cap ≠ 0 then 1 else 0)

/-- The columns chunk `k` is responsible for, as a sublist of the row:
`col_offsets = chunk_idx * BLOCK_SIZE + tl.arange(0, BLOCK_SIZE)` masked to
columns below the vocab size. -/
def chunkWindow (cap k : ℕ) (l : List ℝ) : List ℝ :=
  (l.drop (k * cap)).take cap

/-- The list of all chunk windows of a row, one per launched chunk. -/
def chunkWindows (cap : ℕ) (l : List ℝ) : List (List ℝ) :=
  (List.range (nChunks l.length cap)).map (fun k => chunkWindow cap k l)

/-- One row of `_chunked_cross_entropy_forward` (source lines 136-172),
collapsed over its chunk grid: every chunk stores its local stable
log-sum-exp of the pre-transformed, `-∞`-padded window; chunk 0 stores the
negated transformed label logit into the loss slot (0 for the ignore
sentinel).  Returns `(loss slot, per-chunk logsumexp list)`, `none` on an
out-of-bounds label load. -/
noncomputable def chunked_cross_entropy_forward (softcap scale : ℝ) (cap : ℕ)
    (row : List ℝ) (label : ℤ) : Option (ℝ × List ℝ) :=
  let lses := (List.range (nChunks row.length cap)).map
    (fun k => logsumexpE ((loadChunkE row cap k).map (preTransformLane softcap scale)))
  let slot : Option ℝ :=
    if label ≠ -100 then
      (loadLabelLogit row label).map (fun x => -1 * preTransform softcap scale x)
    else
      some 0
  slot.map (fun s => (s, lses))

/-- One row of the chunked branch of `Fast_CrossEntropyLoss.forward`
(source lines 292-315): run the chunked kernel, reduce the per-chunk
log-sum-exp values with `torch.logsumexp`, add the reduction into the loss
slot (`losses += logsumexp`), then mask ignored rows to exactly 0
(`losses.masked_fill_(labels == -100, 0)` — after the addition).
Returns `(loss, row logsumexp)`. -/
noncomputable def forwardChunkedRow (softcap scale : ℝ) (cap : ℕ)
    (row : List ℝ) (label : ℤ) : Option (ℝ × ℝ) :=
  (chunked_cross_entropy_forward softcap scale cap row label).map (fun sl =>
    let L := logsumexp sl.2
    let combined := sl.1 + L
    (if label = -100 then 0 else combined, L))

/-- One column of `_cross_entropy_backward` (source lines 208-256): scale
the raw logit (`x = x * LOGIT_SCALE`), softcap it keeping the tanh factor,
form `y = exp(x - logsumexp)`, subtract 1 exactly at the label column, then
multiply by the scale derivative, by the softcap derivative
`1 - tanh²`, and finally by `dloss`. -/
noncomputable def cross_entropy_backward_entry (softcap scale dloss lse : ℝ)
    (label : ℤ) (j : ℕ) (xIn : ℝ) : ℝ :=
  let x1 := if scale ≠ 0 then xIn * scale else xIn
  let tpart := Real.tanh (x1 / softcap)
  let x2 := if softcap ≠ 0 then softcap * tpart else x1
  let y0 := Real.exp (x2 - lse)
  let y1 := if (j : ℤ) = label then y0 - 1 else y0
  let y2 := if scale ≠ 0 then y1 * scale else y1
  let y3 := if softcap ≠ 0 then y2 * (1 - tpart * tpart) else y2
  dloss * y3

/-- One row of `_cross_entropy_backward`, collapsed over its tile grid (the
tiles partition the columns and each in-range column is written once): the
upstream `dloss` is loaded only when the label is not the ignore sentinel
and replaced by 0 otherwise (source lines 217-220); each column `j` of the
logits buffer is overwritten with its gradient entry. -/
noncomputable def cross_entropy_backward_row (softcap scale : ℝ)
    (row : List ℝ) (label : ℤ) (lse dlossIn : ℝ) : List ℝ :=
  let dloss := if label ≠ -100 then dlossIn else 0
  (List.range row.length).map
    (fun j => cross_entropy_backward_entry softcap scale dloss lse label j (row.getD j 0))

/-- Modelled from the spec: `calculate_settings` lives in the repository's
`utils` module, which is not among the sources; §9 of the spec describes it
as choosing the kernel block width by "a simple power-of-two-ceiling rule"
over the vocabulary width. -/
def calculate_settings_block (V : ℕ) : ℕ := 2 ^ Nat.clog 2 V

/-- Sequential `Option`-valued map over a list: `some` of the list of
results when every element succeeds, `none` as soon as one fails.  Used to
collapse a per-row kernel grid into one value. -/
def mapOption (f : α → Option β) : List α → Option (List β)
  | [] => some []
  | a :: l =>
    match f a, mapOption f l with
    | some b, some bs => some (b :: bs)
    | _, _ => none

/-- `Fast_CrossEntropyLoss.forward` (source lines 264-322) on a logits
matrix: derive the chunk count from the vocab size against the capacity,
run the single-pass kernel over all rows when it is 1, otherwise run the
chunked kernel and the chunk-combine reduction; returns the per-row loss
vector. -/
noncomputable def Fast_CrossEntropyLoss_forward (softcap scale : ℝ) (V : ℕ)
    (logits : List (List ℝ)) (labels : List ℤ) : Option (List ℝ) :=
  if nChunks V MAX_FUSED_SIZE = 1 then
    mapOption
      (fun rl => (cross_entropy_forward softcap scale (calculate_settings_block V) rl.1 rl.2).map Prod.fst)
      (logits.zip labels)
  else
    mapOption
      (fun rl => (forwardChunkedRow softcap scale MAX_FUSED_SIZE rl.1 rl.2).map Prod.fst)
      (logits.zip labels)

/-- `fast_cross_entropy_loss` (source lines 352-377): flatten the
batch × sequence dimensions into rows, run the forward pass, and return
`loss.sum() / n_items` with `n_items = count_nonzero(labels != -100)`.
Real division is total in the model (`x / 0 = 0`), standing in for the
non-finite float the implementation produces when `n_items == 0`. -/
noncomputable def fast_cross_entropy_loss (softcap scale : ℝ) (V : ℕ)
    (logits3d : List (List (List ℝ))) (labels2d : List (List ℤ)) : Option ℝ :=
  let logits := logits3d.flatten
  let labels := labels2d.flatten
  (Fast_CrossEntropyLoss_forward softcap scale V logits labels).map
    (fun losses =>
      losses.sum / ((labels.filter (fun lab => decide (lab ≠ -100))).length : ℝ))

/-- The spec-side per-row loss (§4.3): zero for the ignore sentinel,
otherwise the row's log-sum-exp of the pre-transformed logits minus the
pre-transformed label logit. -/
noncomputable def lossSpec (softcap scale : ℝ) (row : List ℝ) (label : ℤ) : ℝ :=
  if label = -100 then 0
  else logsumexp (row.map (preTransform softcap scale))
    - preTransform softcap scale (row.getD label.toNat 0)

/-- Dividing every element of a list by a constant divides the sum. -/
theorem sum_map_div (l : List ℝ) (a : ℝ) :
    (l.map (fun x => x / a)).sum = l.sum / a := by
  induction l with
  | nil => simp
  | cons x xs ih => simp [ih, add_div]

/-- The sum of exponentials of a nonempty row is positive. -/
theorem sum_map_exp_pos (l : List ℝ) (h : l ≠ []) : 0 < (l.map Real.exp).sum := by
  match l with
  | x :: xs =>
    have h1 : 0 ≤ (xs.map Real.exp).sum := by
      apply List.sum_nonneg
      intro a ha
      simp only [List.mem_map] at ha
      obtain ⟨b, _, rfl⟩ := ha
      exact (Real.exp_pos b).le
    simpa using add_pos_of_pos_of_nonneg (Real.exp_pos x) h1

/-- The stable log-sum-exp of a nonempty row equals the plain
`log (sum (exp x))`: shifting by the row maximum cancels. -/
theorem logsumexp_eq_log (l : List ℝ) (h : l ≠ []) :
    logsumexp l = Real.log ((l.map Real.exp).sum) := by
  unfold logsumexp
  set c := listMax l with hc
  have h1 : l.map (fun x => Real.exp (x - c)) = (l.map Real.exp).map (fun x => x / Real.exp c) := by
    rw [List.map_map]
    exact List.map_congr_left (fun x _ => Real.exp_sub x c)
  rw [h1, sum_map_div, Real.log_div (sum_map_exp_pos l h).ne' (Real.exp_ne_zero c),
    Real.log_exp]
  ring

/-- Exponentiating the log-sum-exp of a nonempty row recovers the sum of
exponentials. -/
theorem exp_logsumexp (l : List ℝ) (h : l ≠ []) :
    Real.exp (logsumexp l) = (l.map Real.exp).sum := by
  rw [logsumexp_eq_log l h, Real.exp_log (sum_map_exp_pos l h)]

/-- A concatenation of nonempty chunks, at least one chunk, is nonempty. -/
theorem flatten_ne_nil (L : List (List ℝ)) (hL : L ≠ []) (hc : ∀ c ∈ L, c ≠ []) :
    L.flatten ≠ [] := by
  match L with
  | c :: L2 =>
    have h1 : c ≠ [] := hc c (by simp)
    simp only [List.flatten_cons, ne_eq, List.append_eq_nil]
    tauto

/-- The log-sum-exp self-similarity identity: over any decomposition of a
row into a nonempty list of nonempty contiguous chunks, the log-sum-exp of
the per-chunk log-sum-exp values equals the log-sum-exp of the whole row. -/
theorem logsumexp_flatten (L : List (List ℝ)) (hL : L ≠ []) (hc : ∀ c ∈ L, c ≠ []) :
    logsumexp (L.map logsumexp) = logsumexp L.flatten := by
  have h1 : L.flatten ≠ [] := flatten_ne_nil L hL hc
  have h2 : L.map logsumexp ≠ [] := by
    simp only [ne_eq, List.map_eq_nil_iff]
    exact hL
  rw [logsumexp_eq_log _ h2, logsumexp_eq_log _ h1]
  congr 1
  rw [List.map_map]
  have h3 : L.map (Real.exp ∘ logsumexp) = L.map (fun c => (c.map Real.exp).sum) :=
    List.map_congr_left (fun c hcL => exp_logsumexp c (hc c hcL))
  rw [h3, List.map_flatten, List.sum_flatten, List.map_map]
  rfl

/-- On an in-range (finite) lane the block transform agrees with the
scalar pre-transform. -/
theorem preTransformLane_coe (softcap scale r : ℝ) :
    preTransformLane softcap scale (r : EReal)
      = ((preTransform softcap scale r : ℝ) : EReal) := by
  simp only [preTransformLane, preTransform, laneDiv, laneTanh]
  by_cases hs : scale ≠ 0 <;> by_cases hc : softcap ≠ 0 <;>
    simp [hs, hc, ← EReal.coe_mul, EReal.toReal_coe, EReal.coe_ne_bot, EReal.coe_ne_top,
      div_eq_mul_inv]

/-- With softcapping off and a nonnegative scale the `-∞` filler stays
`-∞` through the transform: the padding is inert. -/
theorem preTransformLane_bot_inert (softcap scale : ℝ) (hc : softcap = 0) (hs : 0 ≤ scale) :
    preTransformLane softcap scale ⊥ = ⊥ := by
  subst hc
  simp only [preTransformLane]
  rw [if_neg (show ¬((0:ℝ) ≠ 0) by simp)]
  by_cases h : scale = 0
  · rw [if_neg (by simp [h])]
  · rw [if_pos (by simp [h]),
      EReal.mul_bot_of_pos (by exact_mod_cast lt_of_le_of_ne hs (Ne.symm h))]

/-- With an active positive softcap and no scaling, the `-∞` filler lane
is softcapped to the finite value `-softcap`, which joins the reduction. -/
theorem preTransformLane_bot_softcap (t : ℝ) (ht : 0 < t) :
    preTransformLane t 0 ⊥ = ((-t : ℝ) : EReal) := by
  simp only [preTransformLane]
  rw [if_neg (show ¬((0:ℝ) ≠ 0) by simp), if_pos ht.ne', laneDiv,
    EReal.bot_mul_of_pos (by exact_mod_cast inv_pos.mpr ht), laneTanh, if_pos rfl,
    ← EReal.coe_mul]
  norm_num

/-- A masked block load is the in-range prefix of the row followed by the
`-∞` filler lanes. -/
theorem loadBlockE_eq (row : List ℝ) (B : ℕ) :
    loadBlockE row B =
      (row.take B).map Real.toEReal ++ List.replicate (B - row.length) ⊥ := by
  induction row generalizing B with
  | nil =>
    simp only [List.take_nil, List.map_nil, List.nil_append, Nat.sub_zero]
    induction B with
    | zero => rfl
    | succ n ih =>
      rw [loadBlockE, List.range_succ, List.map_append, ← loadBlockE, ih]
      simp [List.replicate_succ']
  | cons x xs ih =>
    cases B with
    | zero => simp [loadBlockE]
    | succ B =>
      have h1 : loadBlockE (x :: xs) (B + 1) = (x : EReal) :: loadBlockE xs B := by
        unfold loadBlockE
        rw [List.range_succ_eq_map, List.map_cons, List.map_map]
        congr 1
        · simp
        · exact List.map_congr_left (fun i _ => by simp [List.getElem?_cons_succ])
      rw [h1, ih B, List.take_succ_cons, List.map_cons, List.cons_append,
        List.length_cons, Nat.succ_sub_succ]

/-- The chunked kernel's block load for chunk `k` is the block load of the
row with the first `k · cap` columns dropped. -/
theorem loadChunkE_eq (row : List ℝ) (cap k : ℕ) :
    loadChunkE row cap k = loadBlockE (row.drop (k * cap)) cap := by
  unfold loadChunkE loadBlockE
  exact List.map_congr_left (fun i _ => by rw [List.getElem?_drop])

/-- Folding `max` over coerced reals stays in the reals. -/
theorem foldl_max_coe (x : ℝ) (l : List ℝ) :
    (l.map Real.toEReal).foldl max (x : EReal) = ((l.foldl max x : ℝ) : EReal) := by
  induction l generalizing x with
  | nil => rfl
  | cons y ys ih =>
    simp only [List.map_cons, List.foldl_cons]
    rw [← EReal.coe_strictMono.monotone.map_max, ih]

/-- The block maximum of an all-finite block is the real row maximum. -/
theorem listMaxE_coe (l : List ℝ) (hl : l ≠ []) :
    listMaxE (l.map Real.toEReal) = ((listMax l : ℝ) : EReal) := by
  match l with
  | x :: xs =>
    simp only [List.map_cons, listMaxE, listMax]
    exact foldl_max_coe x xs

/-- The block log-sum-exp of an all-finite block is the real stable
log-sum-exp of its values. -/
theorem logsumexpE_coe (l : List ℝ) :
    logsumexpE (l.map Real.toEReal) = logsumexp l := by
  match l with
  | [] => simp [logsumexpE, logsumexp, listMaxE, listMax]
  | x :: xs =>
    have hne : x :: xs ≠ [] := List.cons_ne_nil x xs
    unfold logsumexpE logsumexp
    rw [listMaxE_coe _ hne, EReal.toReal_coe, List.map_map]
    have h2 : ∀ r ∈ x :: xs,
        laneExp ((Real.toEReal r) - ((listMax (x :: xs) : ℝ) : EReal))
          = Real.exp (r - listMax (x :: xs)) := by
      intro r _
      rw [← EReal.coe_sub, laneExp, if_neg (EReal.coe_ne_bot _),
        if_neg (EReal.coe_ne_top _), EReal.toReal_coe]
    simp only [Function.comp_def]
    rw [List.map_congr_left (fun r hr => h2 r hr)]

/-- Folding `max` over trailing `-∞` lanes changes nothing. -/
theorem foldl_max_replicate_bot (n : ℕ) (a : EReal) :
    (List.replicate n (⊥ : EReal)).foldl max a = a := by
  induction n generalizing a with
  | zero => rfl
  | succ m ih =>
    rw [List.replicate_succ, List.foldl_cons, max_eq_left bot_le, ih]

/-- Trailing `-∞` lanes do not move the block maximum. -/
theorem listMaxE_append_bot (l : List EReal) (n : ℕ) :
    listMaxE (l ++ List.replicate n ⊥) = listMaxE l := by
  match l with
  | [] =>
    cases n with
    | zero => rfl
    | succ m =>
      simp only [List.nil_append, List.replicate_succ, listMaxE]
      rw [foldl_max_replicate_bot]
  | x :: xs =>
    simp only [List.cons_append, listMaxE, List.foldl_append]
    rw [foldl_max_replicate_bot]

/-- Lanes that stay `-∞` through the transform are inert in the block
log-sum-exp: they never attain the maximum and contribute `exp(-∞) = 0`. -/
theorem logsumexpE_append_bot (l : List EReal) (n : ℕ) :
    logsumexpE (l ++ List.replicate n ⊥) = logsumexpE l := by
  unfold logsumexpE
  rw [listMaxE_append_bot]
  congr 2
  rw [List.map_append, List.sum_append]
  have h1 : (List.replicate n (⊥ : EReal)).map (fun x => laneExp (x - listMaxE l))
      = List.replicate n 0 := by
    rw [List.map_replicate, EReal.bot_sub]
    simp [laneExp]
  rw [h1, List.sum_replicate]
  simp

/-- The padded-block log-sum-exp collapses to the log-sum-exp of the
transformed in-range prefix, provided there are no filler lanes or the
filler is inert (softcap off, nonnegative scale). -/
theorem logsumexpE_loadBlockE (softcap scale : ℝ) (l : List ℝ) (B : ℕ)
    (hpad : B ≤ l.length ∨ (softcap = 0 ∧ 0 ≤ scale)) :
    logsumexpE ((loadBlockE l B).map (preTransformLane softcap scale)) =
      logsumexp ((l.take B).map (preTransform softcap scale)) := by
  rw [loadBlockE_eq, List.map_append, List.map_map, List.map_replicate]
  have hcoe : (l.take B).map ((preTransformLane softcap scale) ∘ Real.toEReal)
      = ((l.take B).map (preTransform softcap scale)).map Real.toEReal := by
    rw [List.map_map]
    exact List.map_congr_left (fun r _ => preTransformLane_coe softcap scale r)
  rw [hcoe]
  rcases hpad with h | ⟨hc, hs⟩
  · rw [Nat.sub_eq_zero_of_le h]
    simp only [List.replicate_zero, List.append_nil]
    exact logsumexpE_coe _
  · rw [preTransformLane_bot_inert softcap scale hc hs, logsumexpE_append_bot]
    exact logsumexpE_coe _

/-- The single-pass kernel's padded-block log-sum-exp equals the row's
log-sum-exp when the block exactly fits the row or the filler is inert. -/
theorem logsumexpE_block (softcap scale : ℝ) (row : List ℝ) (B : ℕ)
    (hB : row.length ≤ B)
    (hpad : B = row.length ∨ (softcap = 0 ∧ 0 ≤ scale)) :
    logsumexpE ((loadBlockE row B).map (preTransformLane softcap scale)) =
      logsumexp (row.map (preTransform softcap scale)) := by
  rw [logsumexpE_loadBlockE softcap scale row B (hpad.imp (fun h => h.le) id),
    List.take_of_length_le hB]

/-- The chunk-`k` padded-block log-sum-exp equals the chunk window's
log-sum-exp when the capacity divides the row width (full windows, no
filler) or the filler is inert. -/
theorem logsumexpE_chunk (softcap scale : ℝ) (row : List ℝ) (cap k : ℕ)
    (hcap : 0 < cap) (hk : k < nChunks row.length cap)
    (hpad : cap ∣ row.length ∨ (softcap = 0 ∧ 0 ≤ scale)) :
    logsumexpE ((loadChunkE row cap k).map (preTransformLane softcap scale)) =
      logsumexp ((chunkWindow cap k row).map (preTransform softcap scale)) := by
  rw [loadChunkE_eq]
  refine logsumexpE_loadBlockE softcap scale _ cap (hpad.imp ?_ id)
  intro hdvd
  obtain ⟨q, hq⟩ := hdvd
  have hn : nChunks row.length cap = q := by
    unfold nChunks
    rw [hq, Nat.mul_mod_right, Nat.mul_div_cancel_left q hcap]
    simp
  rw [hn] at hk
  rw [List.length_drop]
  have h3 : k * cap + cap ≤ row.length := by
    rw [hq]
    calc k * cap + cap = (k + 1) * cap := by ring
    _ ≤ q * cap := Nat.mul_le_mul_right cap hk
    _ = cap * q := mul_comm q cap
  exact Nat.le_sub_of_add_le (by omega)

/-- In-bounds label-logit load: a nonnegative label below the row width
reads the stored value. -/
theorem loadLabelLogit_eq (row : List ℝ) (label : ℤ) (h0 : 0 ≤ label)
    (hlt : label.toNat < row.length) :
    loadLabelLogit row label = some (row.getD label.toNat 0) := by
  unfold loadLabelLogit
  rw [if_pos h0, List.getElem?_eq_getElem hlt, List.getD_eq_getElem?_getD,
    List.getElem?_eq_getElem hlt]
  rfl

/-- The ceiling chunk count peels off one chunk at a time: a nonempty row
has one chunk for its first `cap` columns plus the chunks of the rest. -/
theorem nChunks_succ (V cap : ℕ) (hcap : 0 < cap) (hV : 0 < V) :
    nChunks V cap = nChunks (V - cap) cap + 1 := by
  rcases le_or_lt cap V with h | h
  · obtain ⟨m, rfl⟩ : ∃ m, V = m + cap := ⟨V - cap, by omega⟩
    unfold nChunks
    rw [Nat.add_mod_right, Nat.add_div_right _ hcap, Nat.add_sub_cancel]
    ring
  · have h1 : V - cap = 0 := by omega
    unfold nChunks
    rw [h1, Nat.div_eq_of_lt h, Nat.mod_eq_of_lt h]
    simp [hV.ne', Nat.zero_mod]

/-- A row has no chunk windows exactly when it is empty. -/
theorem chunkWindows_nil (cap : ℕ) : chunkWindows cap ([] : List ℝ) = [] := by
  simp [chunkWindows, nChunks]

/-- Peeling the first chunk window off a nonempty row. -/
theorem chunkWindows_cons (cap : ℕ) (l : List ℝ) (hcap : 0 < cap) (hl : l ≠ []) :
    chunkWindows cap l = l.take cap :: chunkWindows cap (l.drop cap) := by
  unfold chunkWindows
  rw [List.length_drop,
    nChunks_succ l.length cap hcap (List.length_pos.mpr hl),
    List.range_succ_eq_map, List.map_cons, List.map_map]
  congr 1
  · simp [chunkWindow]
  · apply List.map_congr_left
    intro k _
    show chunkWindow cap (k + 1) l = chunkWindow cap k (l.drop cap)
    unfold chunkWindow
    rw [List.drop_drop]
    congr 2
    ring

/-- Concatenating the chunk windows of a row recovers the row
(fuel-indexed form for the induction). -/
theorem chunkWindows_flatten_aux (cap : ℕ) (hcap : 0 < cap) :
    ∀ n (l : List ℝ), l.length ≤ n → (chunkWindows cap l).flatten = l := by
  intro n
  induction n with
  | zero =>
    intro l h
    have hl : l = [] := List.eq_nil_of_length_eq_zero (by omega)
    subst hl
    simp [chunkWindows_nil]
  | succ n ih =>
    intro l h
    by_cases hl : l = []
    · subst hl; simp [chunkWindows_nil]
    · rw [chunkWindows_cons cap l hcap hl, List.flatten_cons,
        ih (l.drop cap) (by rw [List.length_drop]; have := List.length_pos.mpr hl; omega),
        List.take_append_drop]

/-- Concatenating the chunk windows of a row recovers the row: the chunk
partition is exhaustive and non-overlapping. -/
theorem chunkWindows_flatten (cap : ℕ) (l : List ℝ) (hcap : 0 < cap) :
    (chunkWindows cap l).flatten = l :=
  chunkWindows_flatten_aux cap hcap l.length l le_rfl

/-- Every launched chunk window of a row is nonempty (fuel-indexed form). -/
theorem chunkWindows_mem_ne_nil_aux (cap : ℕ) (hcap : 0 < cap) :
    ∀ n (l : List ℝ), l.length ≤ n → ∀ c ∈ chunkWindows cap l, c ≠ [] := by
  intro n
  induction n with
  | zero =>
    intro l h c hcl
    have hl : l = [] := List.eq_nil_of_length_eq_zero (by omega)
    subst hl
    rw [chunkWindows_nil] at hcl
    exact absurd hcl (List.not_mem_nil c)
  | succ n ih =>
    intro l h c hcl
    by_cases hl : l = []
    · subst hl
      rw [chunkWindows_nil] at hcl
      exact absurd hcl (List.not_mem_nil c)
    · rw [chunkWindows_cons cap l hcap hl, List.mem_cons] at hcl
      rcases hcl with rfl | hcl
      · simp only [ne_eq, List.take_eq_nil_iff]
        push_neg
        exact ⟨by omega, hl⟩
      · exact ih (l.drop cap)
          (by rw [List.length_drop]; have := List.length_pos.mpr hl; omega) c hcl

/-- Every launched chunk window of a row is nonempty. -/
theorem chunkWindows_mem_ne_nil (cap : ℕ) (l : List ℝ) (hcap : 0 < cap) :
    ∀ c ∈ chunkWindows cap l, c ≠ [] :=
  chunkWindows_mem_ne_nil_aux cap hcap l.length l le_rfl

/-- A nonempty row launches at least one chunk. -/
theorem chunkWindows_ne_nil (cap : ℕ) (l : List ℝ) (hcap : 0 < cap) (hl : l ≠ []) :
    chunkWindows cap l ≠ [] := by
  rw [chunkWindows_cons cap l hcap hl]
  exact List.cons_ne_nil _ _

/-- The per-chunk log-sum-exp values computed by the chunked kernel are the
log-sum-exp values of the chunk windows of the pre-transformed row. -/
theorem chunk_lses_eq (softcap scale : ℝ) (cap : ℕ) (row : List ℝ)
    (hcap : 0 < cap) (hpad : cap ∣ row.length ∨ (softcap = 0 ∧ 0 ≤ scale)) :
    (List.range (nChunks row.length cap)).map
      (fun k => logsumexpE
        ((loadChunkE row cap k).map (preTransformLane softcap scale))) =
    (chunkWindows cap (row.map (preTransform softcap scale))).map logsumexp := by
  unfold chunkWindows
  rw [List.length_map, List.map_map]
  apply List.map_congr_left
  intro k hk
  rw [List.mem_range] at hk
  rw [logsumexpE_chunk softcap scale row cap k hcap hk hpad]
  show logsumexp ((chunkWindow cap k row).map (preTransform softcap scale)) =
    logsumexp (chunkWindow cap k (row.map (preTransform softcap scale)))
  unfold chunkWindow
  rw [List.map_take, List.map_drop]

/-- The chunk-combine reduction: the log-sum-exp of the per-chunk
log-sum-exp values computed by the chunked kernel is the log-sum-exp of the
whole pre-transformed row. -/
theorem chunked_row_lse (softcap scale : ℝ) (cap : ℕ) (row : List ℝ)
    (hcap : 0 < cap) (hrow : row ≠ [])
    (hpad : cap ∣ row.length ∨ (softcap = 0 ∧ 0 ≤ scale)) :
    logsumexp ((List.range (nChunks row.length cap)).map
      (fun k => logsumexpE
        ((loadChunkE row cap k).map (preTransformLane softcap scale)))) =
    logsumexp (row.map (preTransform softcap scale)) := by
  rw [chunk_lses_eq softcap scale cap row hcap hpad]
  have htne : row.map (preTransform softcap scale) ≠ [] := by
    simp only [ne_eq, List.map_eq_nil_iff]
    exact hrow
  rw [logsumexp_flatten _ (chunkWindows_ne_nil cap _ hcap htne)
    (chunkWindows_mem_ne_nil cap _ hcap), chunkWindows_flatten cap _ hcap]

/-- Evaluation of the single-pass forward kernel with a block wide enough
for the row: the padded block's log-sum-exp collapses to the row's. -/
theorem cross_entropy_forward_eval (softcap scale : ℝ) (B : ℕ) (row : List ℝ) (label : ℤ)
    (hB : row.length ≤ B)
    (hpad : B = row.length ∨ (softcap = 0 ∧ 0 ≤ scale)) :
    cross_entropy_forward softcap scale B row label =
      if label ≠ -100 then
        (loadLabelLogit row label).map
          (fun x => (logsumexp (row.map (preTransform softcap scale))
              - preTransform softcap scale x,
            logsumexp (row.map (preTransform softcap scale))))
      else some (0, logsumexp (row.map (preTransform softcap scale))) := by
  simp only [cross_entropy_forward]
  rw [logsumexpE_block softcap scale row B hB hpad]

/-- The single-pass forward kernel on a safe label produces the spec-side
row loss together with the row log-sum-exp. -/
theorem forward_row_single_eval (softcap scale : ℝ) (B : ℕ) (row : List ℝ) (label : ℤ)
    (hB : row.length ≤ B)
    (hpad : B = row.length ∨ (softcap = 0 ∧ 0 ≤ scale))
    (hlab : label = -100 ∨ (0 ≤ label ∧ label.toNat < row.length)) :
    cross_entropy_forward softcap scale B row label =
      some (lossSpec softcap scale row label,
        logsumexp (row.map (preTransform softcap scale))) := by
  rw [cross_entropy_forward_eval softcap scale B row label hB hpad]
  rcases hlab with rfl | ⟨h0, hlt⟩
  · simp [lossSpec]
  · have hne : label ≠ -100 := by omega
    rw [if_pos hne, loadLabelLogit_eq row label h0 hlt]
    simp [lossSpec, hne]

/-- The chunked forward kernel plus chunk-combine reduction on a safe label
produces the spec-side row loss together with the row log-sum-exp. -/
theorem forward_row_chunked_eval (softcap scale : ℝ) (cap : ℕ) (row : List ℝ) (label : ℤ)
    (hcap : 0 < cap) (hrow : row ≠ [])
    (hpad : cap ∣ row.length ∨ (softcap = 0 ∧ 0 ≤ scale))
    (hlab : label = -100 ∨ (0 ≤ label ∧ label.toNat < row.length)) :
    forwardChunkedRow softcap scale cap row label =
      some (lossSpec softcap scale row label,
        logsumexp (row.map (preTransform softcap scale))) := by
  simp only [forwardChunkedRow, chunked_cross_entropy_forward]
  rcases hlab with rfl | ⟨h0, hlt⟩
  · simp only [ne_eq, not_true_eq_false, if_false, reduceIte, Option.map_some']
    rw [chunked_row_lse softcap scale cap row hcap hrow hpad]
    simp [lossSpec]
  · have hne : label ≠ -100 := by omega
    rw [if_pos hne, loadLabelLogit_eq row label h0 hlt]
    simp only [Option.map_some', if_neg hne]
    rw [chunked_row_lse softcap scale cap row hcap hrow hpad]
    simp only [lossSpec, if_neg hne, Option.some_inj, Prod.mk.injEq]
    constructor
    · ring
    · trivial

/-- A sequential `Option` map succeeds with the pointwise results when
every element succeeds. -/
theorem mapOption_eq_some {α β : Type} (f : α → Option β) (g : α → β) :
    ∀ l : List α, (∀ x ∈ l, f x = some (g x)) → mapOption f l = some (l.map g) := by
  intro l
  induction l with
  | nil => intro _; rfl
  | cons a l ih =>
    intro h
    simp only [mapOption]
    rw [h a (List.mem_cons_self a l), ih (fun x hx => h x (List.mem_cons_of_mem a hx))]
    rfl

/-- `Fast_CrossEntropyLoss.forward`: whichever branch the chunk count
selects, every row's stored loss is the spec-side row loss, provided the
transform configuration keeps the `-∞` filler lanes inert (softcap off,
nonnegative scale). -/
theorem forward_matrix_eval (softcap scale : ℝ) (V : ℕ)
    (logits : List (List ℝ)) (labels : List ℤ)
    (hV : 0 < V)
    (hconf : softcap = 0 ∧ 0 ≤ scale)
    (hrows : ∀ r ∈ logits, r.length = V)
    (hlab : ∀ lab ∈ labels, lab = -100 ∨ (0 ≤ lab ∧ lab.toNat < V)) :
    Fast_CrossEntropyLoss_forward softcap scale V logits labels =
      some ((logits.zip labels).map (fun rl => lossSpec softcap scale rl.1 rl.2)) := by
  unfold Fast_CrossEntropyLoss_forward
  by_cases hn : nChunks V MAX_FUSED_SIZE = 1
  · rw [if_pos hn]
    apply mapOption_eq_some
    intro rl hrl
    have hlen : rl.1.length = V := hrows _ (List.of_mem_zip hrl).1
    have hsafe := hlab _ (List.of_mem_zip hrl).2
    rw [forward_row_single_eval softcap scale _ rl.1 rl.2
      (by rw [hlen]; exact Nat.le_pow_clog (by norm_num) V) (Or.inr hconf)
      (by rw [hlen]; exact hsafe)]
    rfl
  · rw [if_neg hn]
    apply mapOption_eq_some
    intro rl hrl
    have hlen : rl.1.length = V := hrows _ (List.of_mem_zip hrl).1
    have hsafe := hlab _ (List.of_mem_zip hrl).2
    rw [forward_row_chunked_eval softcap scale MAX_FUSED_SIZE rl.1 rl.2
      (by norm_num [MAX_FUSED_SIZE]) (List.length_pos.mp (hlen ▸ hV)) (Or.inr hconf)
      (by rw [hlen]; exact hsafe)]
    rfl

/-- Reading one written column of the backward kernel's output row. -/
theorem backward_row_getD (softcap scale : ℝ) (row : List ℝ) (label : ℤ) (L dl : ℝ)
    (j : ℕ) (hj : j < row.length) :
    (cross_entropy_backward_row softcap scale row label L dl).getD j 0 =
      cross_entropy_backward_entry softcap scale (if label ≠ -100 then dl else 0) L label j
        (row.getD j 0) := by
  simp only [cross_entropy_backward_row]
  rw [List.getD_eq_getElem?_getD, List.getElem?_map]
  simp [List.getElem?_range hj]

/-- A list lookup succeeds exactly on in-range indices. -/
theorem isSome_getElem_opt (l : List ℝ) (i : ℕ) : l[i]?.isSome ↔ i < l.length := by
  constructor
  · intro h
    by_contra hc
    rw [List.getElem?_eq_none (by omega)] at h
    simp at h
  · intro h
    rw [List.getElem?_eq_getElem h]
    rfl

/-- The unmasked label-logit load succeeds exactly when the label is a
nonnegative index below the row width. -/
theorem loadLabelLogit_isSome (row : List ℝ) (label : ℤ) :
    (loadLabelLogit row label).isSome ↔ (0 ≤ label ∧ label.toNat < row.length) := by
  unfold loadLabelLogit
  by_cases h0 : 0 ≤ label
  · rw [if_pos h0, isSome_getElem_opt]
    tauto
  · rw [if_neg h0]
    simp [h0]

/-- C1 counterexample: with softcap 1, no scaling, and block width 2 over
the one-column row `[0]`, the `-∞` filler lane is transformed to the finite
`-1 = -softcap` (source order: load with `-inf` fill, then softcap) and
joins the block reduction, so the kernel's stored loss is
`log(1 + e⁻¹) ≠ 0 = row logsumexp − transform(logits[label])`: the claim
fails as stated in exact arithmetic. -/
theorem single_pass_padding_counterexample :
    (cross_entropy_forward 1 0 2 [(0:ℝ)] 0).map Prod.fst ≠
      some (logsumexp ([(0:ℝ)].map (preTransform 1 0))
        - preTransform 1 0 ([(0:ℝ)].getD (0:ℤ).toNat 0)) := by
  have hT0 : preTransform 1 0 0 = 0 := by
    simp [preTransform, Real.tanh_zero]
  have hblock : loadBlockE [(0:ℝ)] 2 = [((0:ℝ) : EReal), ⊥] := by
    simp [loadBlockE, List.range_succ]
  have htrans : (loadBlockE [(0:ℝ)] 2).map (preTransformLane 1 0)
      = [(0:ℝ), -1].map Real.toEReal := by
    rw [hblock]
    simp only [List.map_cons, List.map_nil]
    rw [preTransformLane_coe, preTransformLane_bot_softcap 1 one_pos, hT0]
  have hL : logsumexpE ((loadBlockE [(0:ℝ)] 2).map (preTransformLane 1 0))
      = Real.log (1 + Real.exp (-1)) := by
    rw [htrans, logsumexpE_coe, logsumexp_eq_log _ (by simp)]
    norm_num [Real.exp_zero]
  have hRhs : logsumexp ([(0:ℝ)].map (preTransform 1 0))
      - preTransform 1 0 ([(0:ℝ)].getD (0:ℤ).toNat 0) = 0 := by
    simp only [List.map_cons, List.map_nil, hT0]
    rw [logsumexp_eq_log _ (by simp), show [(0:ℝ)].getD (0:ℤ).toNat 0 = 0 from rfl, hT0]
    norm_num [Real.exp_zero]
  have hfwd : (cross_entropy_forward 1 0 2 [(0:ℝ)] 0).map Prod.fst
      = some (Real.log (1 + Real.exp (-1)) - preTransform 1 0 0) := by
    simp only [cross_entropy_forward, hL]
    rw [if_pos (by norm_num), show loadLabelLogit [(0:ℝ)] 0 = some 0 from rfl]
    rfl
  rw [hfwd, hRhs, hT0, sub_zero, Ne, Option.some_inj]
  have h1 : 0 < Real.log (1 + Real.exp (-1)) :=
    Real.log_pos (by have := Real.exp_pos (-1); linarith)
  exact h1.ne'

/-- C1 (amended): Single-pass forward loss formula with inert padding.
The kernel pads out-of-range block lanes with `-∞` and applies the
pre-transform (scale first, then softcap, each only when its parameter is
nonzero) to the whole padded block; provided the padding is inert — the
block width equals the vocab size, or softcapping is off with a
nonnegative scale (an active softcap maps the `-∞` filler to the finite
`-softcap`, which joins the reduction) — the stable log-sum-exp it computes
is the row's, and it stores `loss = logsumexp − transform(logits[label])`
when the label is not the ignore sentinel −100 and `loss = 0` when it is,
with the row log-sum-exp stored alongside. -/
theorem single_pass_forward_formula (softcap scale : ℝ) (B : ℕ) (row : List ℝ) (label : ℤ)
    (hB : row.length ≤ B) (hcap : row.length ≤ MAX_FUSED_SIZE)
    (hpad : B = row.length ∨ (softcap = 0 ∧ 0 ≤ scale))
    (hlab : label = -100 ∨ (0 ≤ label ∧ label.toNat < row.length)) :
    cross_entropy_forward softcap scale B row label =
      some ((if label = -100 then 0
          else logsumexp (row.map (preTransform softcap scale))
            - preTransform softcap scale (row.getD label.toNat 0)),
        logsumexp (row.map (preTransform softcap scale))) := by
  rw [forward_row_single_eval softcap scale B row label hB hpad hlab]
  rfl

/-- Witness for the amended C1 at the spec §8 scenario: row `[1, 2, 3, 4]`,
label 2, both transforms off, block width 4 (equal to the row width). -/
theorem single_pass_forward_formula_witness :
    ([(1:ℝ), 2, 3, 4].length ≤ 4 ∧ [(1:ℝ), 2, 3, 4].length ≤ MAX_FUSED_SIZE ∧
      (4 = [(1:ℝ), 2, 3, 4].length ∨ ((0:ℝ) = 0 ∧ (0:ℝ) ≤ 0)) ∧
      ((2:ℤ) = -100 ∨ (0 ≤ (2:ℤ) ∧ (2:ℤ).toNat < [(1:ℝ), 2, 3, 4].length))) ∧
    cross_entropy_forward 0 0 4 [(1:ℝ), 2, 3, 4] 2 =
      some ((if (2:ℤ) = -100 then 0
          else logsumexp ([(1:ℝ), 2, 3, 4].map (preTransform 0 0))
            - preTransform 0 0 ([(1:ℝ), 2, 3, 4].getD (2:ℤ).toNat 0)),
        logsumexp ([(1:ℝ), 2, 3, 4].map (preTransform 0 0))) :=
  ⟨⟨by simp, by simp [MAX_FUSED_SIZE], Or.inl (by simp), by norm_num⟩,
    single_pass_forward_formula 0 0 4 [(1:ℝ), 2, 3, 4] 2 (by simp)
      (by simp [MAX_FUSED_SIZE]) (Or.inl (by simp)) (by norm_num)⟩

/-- C3 counterexample: softcap 1, no scaling, row `[0]`, label 0, block
width 4 against chunk capacity 2.  The single-pass block carries three
transformed filler lanes (`-1` each) while the single chunk of the chunked
path carries one, so in exact arithmetic the two paths store
`log(1 + 3e⁻¹)` and `log(1 + e⁻¹)` respectively: path equality fails as
stated. -/
theorem chunked_path_padding_counterexample :
    (forwardChunkedRow 1 0 2 [(0:ℝ)] 0).map Prod.fst ≠
      (cross_entropy_forward 1 0 4 [(0:ℝ)] 0).map Prod.fst := by
  have hT0 : preTransform 1 0 0 = 0 := by
    simp [preTransform, Real.tanh_zero]
  have hblock : loadBlockE [(0:ℝ)] 4 = [((0:ℝ) : EReal), ⊥, ⊥, ⊥] := by
    simp [loadBlockE, List.range_succ]
  have htransS : (loadBlockE [(0:ℝ)] 4).map (preTransformLane 1 0)
      = [(0:ℝ), -1, -1, -1].map Real.toEReal := by
    rw [hblock]
    simp only [List.map_cons, List.map_nil]
    rw [preTransformLane_coe, preTransformLane_bot_softcap 1 one_pos, hT0]
  have hLS : logsumexpE ((loadBlockE [(0:ℝ)] 4).map (preTransformLane 1 0))
      = Real.log (1 + 3 * Real.exp (-1)) := by
    rw [htransS, logsumexpE_coe, logsumexp_eq_log _ (by simp)]
    rw [show ([(0:ℝ), -1, -1, -1].map Real.exp).sum
        = Real.exp 0 + (Real.exp (-1) + (Real.exp (-1) + (Real.exp (-1) + 0))) from rfl]
    norm_num [Real.exp_zero]
    ring_nf
  have hsingle : (cross_entropy_forward 1 0 4 [(0:ℝ)] 0).map Prod.fst
      = some (Real.log (1 + 3 * Real.exp (-1)) - preTransform 1 0 0) := by
    simp only [cross_entropy_forward, hLS]
    rw [if_pos (by norm_num), show loadLabelLogit [(0:ℝ)] 0 = some 0 from rfl]
    rfl
  have hchunk0 : loadChunkE [(0:ℝ)] 2 0 = [((0:ℝ) : EReal), ⊥] := by
    simp [loadChunkE, List.range_succ]
  have htransC : (loadChunkE [(0:ℝ)] 2 0).map (preTransformLane 1 0)
      = [(0:ℝ), -1].map Real.toEReal := by
    rw [hchunk0]
    simp only [List.map_cons, List.map_nil]
    rw [preTransformLane_coe, preTransformLane_bot_softcap 1 one_pos, hT0]
  have hLC : logsumexpE ((loadChunkE [(0:ℝ)] 2 0).map (preTransformLane 1 0))
      = Real.log (1 + Real.exp (-1)) := by
    rw [htransC, logsumexpE_coe, logsumexp_eq_log _ (by simp)]
    norm_num [Real.exp_zero]
  have hn : nChunks ([(0:ℝ)].length) 2 = 1 := by decide
  have hchunked : (forwardChunkedRow 1 0 2 [(0:ℝ)] 0).map Prod.fst
      = some ((-1 * preTransform 1 0 0) + Real.log (1 + Real.exp (-1))) := by
    simp only [forwardChunkedRow, chunked_cross_entropy_forward, hn]
    rw [show List.range 1 = [0] from rfl]
    simp only [List.map_cons, List.map_nil, hLC]
    rw [if_pos (by norm_num : (0:ℤ) ≠ -100),
      show loadLabelLogit [(0:ℝ)] 0 = some 0 from rfl]
    simp only [Option.map_some']
    rw [if_neg (by norm_num : ¬(0:ℤ) = -100)]
    have hone : logsumexp [Real.log (1 + Real.exp (-1))] = Real.log (1 + Real.exp (-1)) := by
      simp [logsumexp, listMax, Real.exp_zero, Real.log_one]
    rw [hone]
  rw [hchunked, hsingle, hT0]
  simp only [Ne, Option.some_inj]
  intro h
  have h1 : Real.log (1 + Real.exp (-1)) < Real.log (1 + 3 * Real.exp (-1)) := by
    apply Real.log_lt_log
    · have := Real.exp_pos (-1); linarith
    · have := Real.exp_pos (-1); linarith
  have h2 : Real.log (1 + Real.exp (-1)) = Real.log (1 + 3 * Real.exp (-1)) := by
    linarith [h]
  linarith

/-- C3 (amended): Path equivalence with inert padding.  For every row with
a non-ignored, in-range label, the chunked path produces the same loss
value as the single-pass kernel whenever neither path's `-∞` padding
survives the pre-transform into the reduction: softcapping off with a
nonnegative scale (the filler stays `-∞` and drops out), or no filler at
all (block width equal to the vocab size and the chunk capacity dividing
it, the spec §8 qualifier).  With an active softcap and unequal padding
counts the two paths differ in exact arithmetic (see the counterexample),
agreeing only within floating-point tolerance. -/
theorem chunked_matches_single_pass (softcap scale : ℝ) (B cap : ℕ) (row : List ℝ)
    (label : ℤ) (hcap : 0 < cap) (hB : row.length ≤ B)
    (hpad : (B = row.length ∧ cap ∣ row.length) ∨ (softcap = 0 ∧ 0 ≤ scale))
    (h0 : 0 ≤ label) (hlt : label.toNat < row.length) (hne : label ≠ -100) :
    (forwardChunkedRow softcap scale cap row label).map Prod.fst =
      (cross_entropy_forward softcap scale B row label).map Prod.fst := by
  have hrow : row ≠ [] := by
    intro h
    rw [h] at hlt
    simp at hlt
  rw [forward_row_chunked_eval softcap scale cap row label hcap hrow
      (hpad.imp (fun h => h.2) id) (Or.inr ⟨h0, hlt⟩),
    forward_row_single_eval softcap scale B row label hB
      (hpad.imp (fun h => h.1) id) (Or.inr ⟨h0, hlt⟩)]

/-- Witness for the amended C3 at the spec §8 scenario: row `[0, 1, 2]`,
label 1, capacity 2 (forcing chunks `[0, 1]` and `[2]`) against block
width 4, both transforms off. -/
theorem chunked_matches_single_pass_witness :
    (0 < 2 ∧ [(0:ℝ), 1, 2].length ≤ 4 ∧
      ((4 = [(0:ℝ), 1, 2].length ∧ 2 ∣ [(0:ℝ), 1, 2].length) ∨ ((0:ℝ) = 0 ∧ (0:ℝ) ≤ 0)) ∧
      0 ≤ (1:ℤ) ∧ (1:ℤ).toNat < [(0:ℝ), 1, 2].length ∧ (1:ℤ) ≠ -100) ∧
    (forwardChunkedRow 0 0 2 [(0:ℝ), 1, 2] 1).map Prod.fst =
      (cross_entropy_forward 0 0 4 [(0:ℝ), 1, 2] 1).map Prod.fst :=
  ⟨⟨by norm_num, by simp, Or.inr ⟨rfl, le_refl 0⟩, by norm_num, by norm_num, by norm_num⟩,
    chunked_matches_single_pass 0 0 4 2 [(0:ℝ), 1, 2] 1 (by norm_num) (by simp)
      (Or.inr ⟨rfl, le_refl 0⟩) (by norm_num) (by norm_num) (by norm_num)⟩

/-- C4: Log-sum-exp self-similarity identity.  For every finite real vector
and every decomposition into a nonempty list of nonempty contiguous chunks
— in particular the fixed-capacity chunk windows with a possibly shorter
final chunk — the stable log-sum-exp (max plus log of the sum of shifted
exponentials) of the per-chunk log-sum-exp values equals the stable
log-sum-exp of the whole vector. -/
theorem logsumexp_partition_identity :
    (∀ L : List (List ℝ), L ≠ [] → (∀ c ∈ L, c ≠ []) →
      logsumexp (L.map logsumexp) = logsumexp L.flatten) ∧
    (∀ (cap : ℕ) (l : List ℝ), 0 < cap → l ≠ [] →
      logsumexp ((chunkWindows cap l).map logsumexp) = logsumexp l) := by
  constructor
  · exact logsumexp_flatten
  · intro cap l hcap hl
    rw [logsumexp_flatten _ (chunkWindows_ne_nil cap l hcap hl)
      (chunkWindows_mem_ne_nil cap l hcap), chunkWindows_flatten cap l hcap]

/-- Witness for C4 on the partition `[[0, 1], [2]]` of `[0, 1, 2]` and on
the capacity-2 chunk windows of the same vector. -/
theorem logsumexp_partition_identity_witness :
    (([[(0:ℝ), 1], [2]] : List (List ℝ)) ≠ [] ∧
      (∀ c ∈ ([[(0:ℝ), 1], [2]] : List (List ℝ)), c ≠ []) ∧
      0 < 2 ∧ [(0:ℝ), 1, 2] ≠ []) ∧
    logsumexp (([[(0:ℝ), 1], [2]] : List (List ℝ)).map logsumexp) =
      logsumexp (([[(0:ℝ), 1], [2]] : List (List ℝ)).flatten) ∧
    logsumexp ((chunkWindows 2 [(0:ℝ), 1, 2]).map logsumexp) =
      logsumexp [(0:ℝ), 1, 2] :=
  ⟨⟨by simp, by simp, by norm_num, by simp⟩,
    logsumexp_partition_identity.1 [[(0:ℝ), 1], [2]] (by simp) (by simp),
    logsumexp_partition_identity.2 2 [(0:ℝ), 1, 2] (by norm_num) (by simp)⟩

/-- C5: Ignore-sentinel rows.  When the label is −100, the stored per-row
loss is exactly 0 in the single-pass path and in the chunked path (where
the mask is applied after the chunk-combine addition), and the backward
kernel writes exactly 0 into every column of the row. -/
theorem ignored_label_zero_loss_and_grad (softcap scale L dl : ℝ) (B cap : ℕ)
    (row : List ℝ) (label : ℤ) (h : label = -100) :
    (cross_entropy_forward softcap scale B row label).map Prod.fst = some 0 ∧
    (forwardChunkedRow softcap scale cap row label).map Prod.fst = some 0 ∧
    cross_entropy_backward_row softcap scale row label L dl =
      List.replicate row.length 0 := by
  subst h
  refine ⟨?_, ?_, ?_⟩
  · simp [cross_entropy_forward]
  · simp [forwardChunkedRow, chunked_cross_entropy_forward]
  · simp only [cross_entropy_backward_row, ne_eq, not_true_eq_false, if_false, reduceIte]
    have h1 : ∀ j : ℕ,
        cross_entropy_backward_entry softcap scale 0 L (-100) j (row.getD j 0) = 0 := by
      intro j
      simp [cross_entropy_backward_entry]
    rw [List.map_congr_left (fun j _ => h1 j)]
    simp [List.map_const', List.length_range]

/-- Witness for C5: row `[1, 2, 3, 4]` with the ignore sentinel. -/
theorem ignored_label_zero_loss_and_grad_witness :
    ((-100 : ℤ) = -100 ∧
      (cross_entropy_forward 0 0 4 [(1:ℝ), 2, 3, 4] (-100)).map Prod.fst = some 0 ∧
      (forwardChunkedRow 0 0 2 [(1:ℝ), 2, 3, 4] (-100)).map Prod.fst = some 0 ∧
      cross_entropy_backward_row 0 0 [(1:ℝ), 2, 3, 4] (-100) 1 1 =
        List.replicate [(1:ℝ), 2, 3, 4].length 0) :=
  ⟨rfl, ignored_label_zero_loss_and_grad 0 0 1 1 4 2 [(1:ℝ), 2, 3, 4] (-100) rfl⟩

/-- C9: The backward kernel's zero gradient on an ignore-sentinel row does
not rely on the upstream gradient being zero: the kernel replaces the
loaded upstream value by 0 whenever the label is −100, so for every
upstream value — zero or not — the written gradient row is all zeros. -/
theorem backward_ignored_any_upstream (softcap scale L : ℝ) (row : List ℝ) (label : ℤ)
    (h : label = -100) :
    ∀ dl : ℝ, cross_entropy_backward_row softcap scale row label L dl =
      List.replicate row.length 0 := by
  subst h
  intro dl
  simp only [cross_entropy_backward_row, ne_eq, not_true_eq_false, if_false, reduceIte]
  have h1 : ∀ j : ℕ,
      cross_entropy_backward_entry softcap scale 0 L (-100) j (row.getD j 0) = 0 := by
    intro j
    simp [cross_entropy_backward_entry]
  rw [List.map_congr_left (fun j _ => h1 j)]
  simp [List.map_const', List.length_range]

/-- Witness for C9 with the nonzero upstream gradient 7. -/
theorem backward_ignored_any_upstream_witness :
    ((-100 : ℤ) = -100 ∧
      cross_entropy_backward_row 0 0 [(1:ℝ), 2, 3] (-100) 1 7 =
        List.replicate [(1:ℝ), 2, 3].length 0) :=
  ⟨rfl, backward_ignored_any_upstream 0 0 1 [(1:ℝ), 2, 3] (-100) rfl 7⟩

/-- C10: Implicit label-safety precondition.  The label-logit load in both
forward kernels is unmasked, so each kernel completes (no out-of-bounds
read) exactly when the label is the ignore sentinel −100 — the load is then
unreachable — or a nonnegative index below the vocabulary width; any other
label reaches the out-of-bounds branch of the load. -/
theorem label_load_safety (softcap scale : ℝ) (B cap : ℕ) (row : List ℝ) (label : ℤ) :
    ((cross_entropy_forward softcap scale B row label).isSome ↔
      (label = -100 ∨ (0 ≤ label ∧ label.toNat < row.length))) ∧
    ((chunked_cross_entropy_forward softcap scale cap row label).isSome ↔
      (label = -100 ∨ (0 ≤ label ∧ label.toNat < row.length))) := by
  by_cases hl : label = -100
  · subst hl
    constructor
    · simp [cross_entropy_forward]
    · simp [chunked_cross_entropy_forward]
  · constructor
    · simp only [cross_entropy_forward, if_pos hl, Option.isSome_map']
      rw [loadLabelLogit_isSome]
      tauto
    · simp only [chunked_cross_entropy_forward, if_pos hl, Option.isSome_map']
      rw [loadLabelLogit_isSome]
      tauto

/-- C2: Backward gradient formula and order.  For every row and every
in-range column `j`, the backward kernel's written value equals
`dloss · ((exp(transform(x) − logsumexp) − onehot(label)_j) · deriv)` where
`transform` is the forward pre-transform of the raw logit (scale first,
then softcap of the scaled value) and `deriv` is the composed transform
derivative `s · (1 − tanh²(scaled_x / t))` with only the active factors —
i.e. the −1 adjustment at the label column happens before the derivative
and `dloss` scaling; ignored rows use `dloss = 0`. -/
theorem backward_gradient_formula (softcap scale L dl : ℝ) (row : List ℝ) (label : ℤ)
    (j : ℕ) (hj : j < row.length) :
    (cross_entropy_backward_row softcap scale row label L dl).getD j 0 =
      (if label ≠ -100 then dl else 0) *
        ((Real.exp (preTransform softcap scale (row.getD j 0) - L)
            - (if (j : ℤ) = label then 1 else 0)) *
          ((if scale ≠ 0 then scale else 1) *
            (if softcap ≠ 0 then
              1 - Real.tanh
                ((if scale ≠ 0 then scale * row.getD j 0 else row.getD j 0) / softcap) ^ 2
            else 1))) := by
  rw [backward_row_getD softcap scale row label L dl j hj]
  simp only [cross_entropy_backward_entry, preTransform]
  rw [mul_comm (row.getD j 0) scale]
  split_ifs <;> ring

/-- Witness for C2 at row `[1, 2]`, label 0, column 1, scale 2, softcap 3,
upstream gradient 5, row log-sum-exp 4. -/
theorem backward_gradient_formula_witness :
    (1 < [(1:ℝ), 2].length) ∧
    (cross_entropy_backward_row 3 2 [(1:ℝ), 2] 0 4 5).getD 1 0 =
      (if (0:ℤ) ≠ -100 then 5 else 0) *
        ((Real.exp (preTransform 3 2 ([(1:ℝ), 2].getD 1 0) - 4)
            - (if ((1:ℕ) : ℤ) = 0 then 1 else 0)) *
          ((if (2:ℝ) ≠ 0 then 2 else 1) *
            (if (3:ℝ) ≠ 0 then
              1 - Real.tanh
                ((if (2:ℝ) ≠ 0 then 2 * [(1:ℝ), 2].getD 1 0 else [(1:ℝ), 2].getD 1 0) / 3) ^ 2
            else 1))) :=
  ⟨by simp, backward_gradient_formula 3 2 4 5 [(1:ℝ), 2] 0 1 (by simp)⟩

/-- C6 counterexample: softcap 1, no scaling, one row of vocab width 3
(block width `2^ceil(log2 3) = 4`, one transformed filler lane), label 0.
The entry point returns `log(3 + e⁻¹)` while the sum of padding-free
spec row losses over the count is `log 3`: the claimed equality fails as
stated in exact arithmetic. -/
theorem reduced_loss_padding_counterexample :
    fast_cross_entropy_loss 1 0 3 [[[(0:ℝ), 0, 0]]] [[0]] ≠
      some (((([[[(0:ℝ), 0, 0]]] : List (List (List ℝ))).flatten.zip
            ([[0]] : List (List ℤ)).flatten).map
          (fun rl => lossSpec 1 0 rl.1 rl.2)).sum /
        ((([[0]] : List (List ℤ)).flatten.filter
          (fun lab => decide (lab ≠ -100))).length : ℝ)) := by
  have hT0 : preTransform 1 0 0 = 0 := by
    simp [preTransform, Real.tanh_zero]
  have hcs : calculate_settings_block 3 = 4 := by
    rw [calculate_settings_block, Nat.clog_of_two_le (by norm_num) (by norm_num)]
    rw [show (3 + 2 - 1) / 2 = 2 from rfl, Nat.clog_eq_one (by norm_num) (by norm_num)]
    norm_num
  have hblock : loadBlockE [(0:ℝ), 0, 0] 4
      = [((0:ℝ) : EReal), ((0:ℝ) : EReal), ((0:ℝ) : EReal), ⊥] := by
    simp [loadBlockE, List.range_succ]
  have htrans : (loadBlockE [(0:ℝ), 0, 0] 4).map (preTransformLane 1 0)
      = [(0:ℝ), 0, 0, -1].map Real.toEReal := by
    rw [hblock]
    simp only [List.map_cons, List.map_nil]
    rw [preTransformLane_coe, preTransformLane_bot_softcap 1 one_pos, hT0]
  have hL : logsumexpE ((loadBlockE [(0:ℝ), 0, 0] 4).map (preTransformLane 1 0))
      = Real.log (3 + Real.exp (-1)) := by
    rw [htrans, logsumexpE_coe, logsumexp_eq_log _ (by simp)]
    rw [show (([(0:ℝ), 0, 0, -1]).map Real.exp).sum
        = Real.exp 0 + (Real.exp 0 + (Real.exp 0 + (Real.exp (-1) + 0))) from rfl]
    rw [Real.exp_zero]
    ring_nf
  have hfwd : (cross_entropy_forward 1 0 4 [(0:ℝ), 0, 0] 0).map Prod.fst
      = some (Real.log (3 + Real.exp (-1))) := by
    simp only [cross_entropy_forward, hL]
    rw [if_pos (by norm_num : (0:ℤ) ≠ -100),
      show loadLabelLogit [(0:ℝ), 0, 0] 0 = some 0 from rfl]
    simp only [Option.map_some', hT0, sub_zero]
  have hfast : fast_cross_entropy_loss 1 0 3 [[[(0:ℝ), 0, 0]]] [[0]]
      = some (Real.log (3 + Real.exp (-1))) := by
    simp only [fast_cross_entropy_loss, Fast_CrossEntropyLoss_forward]
    rw [if_pos (show nChunks 3 MAX_FUSED_SIZE = 1 by decide), hcs]
    rw [show (([[[(0:ℝ), 0, 0]]] : List (List (List ℝ))).flatten.zip
        ([[0]] : List (List ℤ)).flatten) = [([(0:ℝ), 0, 0], (0:ℤ))] from rfl]
    simp only [mapOption, hfwd]
    simp [List.filter]
  have hspec : ((([[[(0:ℝ), 0, 0]]] : List (List (List ℝ))).flatten.zip
            ([[0]] : List (List ℤ)).flatten).map
          (fun rl => lossSpec 1 0 rl.1 rl.2)).sum /
        ((([[0]] : List (List ℤ)).flatten.filter
          (fun lab => decide (lab ≠ -100))).length : ℝ) = Real.log 3 := by
    rw [show (([[[(0:ℝ), 0, 0]]] : List (List (List ℝ))).flatten.zip
        ([[0]] : List (List ℤ)).flatten) = [([(0:ℝ), 0, 0], (0:ℤ))] from rfl]
    have hrow : lossSpec 1 0 [(0:ℝ), 0, 0] 0 = Real.log 3 := by
      rw [lossSpec, if_neg (by norm_num : ¬(0:ℤ) = -100),
        show [(0:ℝ), 0, 0].getD (0:ℤ).toNat 0 = 0 from rfl, hT0,
        show [(0:ℝ), 0, 0].map (preTransform 1 0) = [0, 0, 0] from by simp [hT0],
        logsumexp_eq_log _ (by simp),
        show (([(0:ℝ), 0, 0]).map Real.exp).sum
          = Real.exp 0 + (Real.exp 0 + (Real.exp 0 + 0)) from rfl,
        Real.exp_zero]
      norm_num
    simp [hrow, List.filter]
  rw [hfast, hspec, Ne, Option.some_inj]
  have h1 : Real.log 3 < Real.log (3 + Real.exp (-1)) := by
    apply Real.log_lt_log (by norm_num)
    have := Real.exp_pos (-1)
    linarith
  exact fun h => absurd h.symm h1.ne

/-- C6 (amended): Scalar loss normalization with inert padding.  For
shape-consistent 3-d logits and 2-d labels with safe labels, a positive
vocabulary width, at least one non-ignored label, and a transform
configuration that keeps the `-∞` block padding inert (softcapping off,
nonnegative scale — with an active softcap the transformed padding joins
each row's reduction and shifts the result, see the counterexample), the
top-level entry point flattens batch × sequence into rows, runs the
forward pass, and returns the sum of the per-row losses divided by the
count of labels different from −100. -/
theorem reduced_loss_normalization (softcap scale : ℝ) (V : ℕ)
    (logits3d : List (List (List ℝ))) (labels2d : List (List ℤ))
    (hV : 0 < V)
    (hconf : softcap = 0 ∧ 0 ≤ scale)
    (hrows : ∀ r ∈ logits3d.flatten, r.length = V)
    (hlab : ∀ lab ∈ labels2d.flatten, lab = -100 ∨ (0 ≤ lab ∧ lab.toNat < V))
    (hcount : 0 < (labels2d.flatten.filter (fun lab => decide (lab ≠ -100))).length) :
    fast_cross_entropy_loss softcap scale V logits3d labels2d =
      some (((logits3d.flatten.zip labels2d.flatten).map
          (fun rl => lossSpec softcap scale rl.1 rl.2)).sum /
        ((labels2d.flatten.filter (fun lab => decide (lab ≠ -100))).length : ℝ)) := by
  simp only [fast_cross_entropy_loss]
  rw [forward_matrix_eval softcap scale V _ _ hV hconf hrows hlab]
  rfl

/-- Witness for the amended C6 on a 1 × 2 × 2 batch with one ignored
position, both transforms off. -/
theorem reduced_loss_normalization_witness :
    (0 < 2 ∧ ((0:ℝ) = 0 ∧ (0:ℝ) ≤ 0) ∧
      (∀ r ∈ ([[[(1:ℝ), 2], [3, 4]]] : List (List (List ℝ))).flatten, r.length = 2) ∧
      (∀ lab ∈ ([[0, -100]] : List (List ℤ)).flatten,
        lab = -100 ∨ (0 ≤ lab ∧ lab.toNat < 2)) ∧
      0 < (([[0, -100]] : List (List ℤ)).flatten.filter
        (fun lab => decide (lab ≠ -100))).length) ∧
    fast_cross_entropy_loss 0 0 2 [[[(1:ℝ), 2], [3, 4]]] [[0, -100]] =
      some (((([[[(1:ℝ), 2], [3, 4]]] : List (List (List ℝ))).flatten.zip
            ([[0, -100]] : List (List ℤ)).flatten).map
          (fun rl => lossSpec 0 0 rl.1 rl.2)).sum /
        ((([[0, -100]] : List (List ℤ)).flatten.filter
          (fun lab => decide (lab ≠ -100))).length : ℝ)) :=
  ⟨⟨by norm_num, ⟨rfl, le_refl 0⟩, by simp, by decide, by decide⟩,
    reduced_loss_normalization 0 0 2 [[[(1:ℝ), 2], [3, 4]]] [[0, -100]]
      (by norm_num) ⟨rfl, le_refl 0⟩ (by simp) (by decide) (by decide)⟩

/-- C7: Chunk partition invariant.  For every positive vocabulary width,
the forward path's chunk count is `ceil(V / 65536)`; the single-pass kernel
is chosen exactly when that count is 1, i.e. exactly when `V ≤ 65536`;
every column below `V` lies in exactly one chunk's window
`[k·65536, (k+1)·65536)`; and each chunk's masked window has width
`min 65536 (V − k·65536)`, which is the full 65536 for every chunk but
possibly the last. -/
theorem chunk_partition_invariant (V : ℕ) (hV : 0 < V) :
    nChunks V MAX_FUSED_SIZE = (V + MAX_FUSED_SIZE - 1) / MAX_FUSED_SIZE ∧
    (nChunks V MAX_FUSED_SIZE = 1 ↔ V ≤ MAX_FUSED_SIZE) ∧
    (∀ col, col < V → ∃! k, k < nChunks V MAX_FUSED_SIZE ∧
      k * MAX_FUSED_SIZE ≤ col ∧ col < (k + 1) * MAX_FUSED_SIZE) ∧
    (∀ l : List ℝ, l.length = V → ∀ k, k < nChunks V MAX_FUSED_SIZE →
      (chunkWindow MAX_FUSED_SIZE k l).length = min MAX_FUSED_SIZE (V - k * MAX_FUSED_SIZE)) ∧
    (∀ l : List ℝ, l.length = V → ∀ k, k + 1 < nChunks V MAX_FUSED_SIZE →
      (chunkWindow MAX_FUSED_SIZE k l).length = MAX_FUSED_SIZE) := by
  have hn : nChunks V MAX_FUSED_SIZE = (V + MAX_FUSED_SIZE - 1) / MAX_FUSED_SIZE := by
    simp only [nChunks, MAX_FUSED_SIZE]
    split <;> omega
  refine ⟨hn, ?_, ?_, ?_, ?_⟩
  · rw [hn]
    simp only [MAX_FUSED_SIZE]
    omega
  · intro col hcol
    refine ⟨col / MAX_FUSED_SIZE, ⟨?_, ?_, ?_⟩, ?_⟩
    · rw [hn]
      simp only [MAX_FUSED_SIZE]
      omega
    · simp only [MAX_FUSED_SIZE]
      omega
    · simp only [MAX_FUSED_SIZE]
      omega
    · rintro k ⟨_, h1, h2⟩
      simp only [MAX_FUSED_SIZE] at h1 h2 ⊢
      omega
  · intro l hl k _
    simp only [chunkWindow, List.length_take, List.length_drop, hl]
  · intro l hl k hk
    rw [hn] at hk
    simp only [chunkWindow, List.length_take, List.length_drop, hl, MAX_FUSED_SIZE] at hk ⊢
    omega

/-- Witness for C7 at the Gemma-like width 256000 (4 chunks, short last). -/
theorem chunk_partition_invariant_witness :
    0 < 256000 ∧ (nChunks 256000 MAX_FUSED_SIZE =
      (256000 + MAX_FUSED_SIZE - 1) / MAX_FUSED_SIZE ∧
    (nChunks 256000 MAX_FUSED_SIZE = 1 ↔ 256000 ≤ MAX_FUSED_SIZE) ∧
    (∀ col, col < 256000 → ∃! k, k < nChunks 256000 MAX_FUSED_SIZE ∧
      k * MAX_FUSED_SIZE ≤ col ∧ col < (k + 1) * MAX_FUSED_SIZE) ∧
    (∀ l : List ℝ, l.length = 256000 → ∀ k, k < nChunks 256000 MAX_FUSED_SIZE →
      (chunkWindow MAX_FUSED_SIZE k l).length =
        min MAX_FUSED_SIZE (256000 - k * MAX_FUSED_SIZE)) ∧
    (∀ l : List ℝ, l.length = 256000 → ∀ k, k + 1 < nChunks 256000 MAX_FUSED_SIZE →
      (chunkWindow MAX_FUSED_SIZE k l).length = MAX_FUSED_SIZE)) :=
  ⟨by norm_num, chunk_partition_invariant 256000 (by norm_num)⟩

/-- C8 counterexample: with the single all-ignored batch
`logits = [[[0]]], labels = [[−100]]`, the valid-label count is 0, yet the
entry point returns a value (`some` — the junk quotient, 0 in the exact
model, NaN in the floating-point implementation) instead of surfacing an
explicit error. -/
theorem all_ignored_returns_value :
    fast_cross_entropy_loss 0 0 1 [[[(0:ℝ)]]] [[-100]] = some 0 ∧
    (([[-100]] : List (List ℤ)).flatten.filter
      (fun lab => decide (lab ≠ -100))).length = 0 := by
  constructor
  · simp only [fast_cross_entropy_loss, Fast_CrossEntropyLoss_forward]
    have hn : nChunks 1 MAX_FUSED_SIZE = 1 := by decide
    rw [if_pos hn]
    simp [mapOption, cross_entropy_forward]
  · decide

/-- C8 amended: when every label in the flattened batch is the ignore
sentinel −100, the entry point does not surface an explicit error: every
per-row loss is 0, the division by the zero valid-label count is performed
anyway (non-finite in the floating-point implementation, the junk value 0
under the model's total real division), and the quotient is returned. -/
theorem all_ignored_no_error (softcap scale : ℝ) (V : ℕ)
    (logits3d : List (List (List ℝ))) (labels2d : List (List ℤ))
    (hall : ∀ lab ∈ labels2d.flatten, lab = -100) :
    fast_cross_entropy_loss softcap scale V logits3d labels2d = some 0 := by
  simp only [fast_cross_entropy_loss]
  have h : Fast_CrossEntropyLoss_forward softcap scale V logits3d.flatten labels2d.flatten
      = some ((logits3d.flatten.zip labels2d.flatten).map (fun _ => (0:ℝ))) := by
    unfold Fast_CrossEntropyLoss_forward
    by_cases hn : nChunks V MAX_FUSED_SIZE = 1
    · rw [if_pos hn]
      apply mapOption_eq_some
      intro rl hrl
      have h2 : rl.2 = -100 := hall _ (List.of_mem_zip hrl).2
      simp [cross_entropy_forward, h2]
    · rw [if_neg hn]
      apply mapOption_eq_some
      intro rl hrl
      have h2 : rl.2 = -100 := hall _ (List.of_mem_zip hrl).2
      simp [forwardChunkedRow, chunked_cross_entropy_forward, h2]
  rw [h]
  simp

/-- Witness for the amended C8 on a two-position all-ignored batch. -/
theorem all_ignored_no_error_witness :
    (∀ lab ∈ ([[-100, -100]] : List (List ℤ)).flatten, lab = -100) ∧
    fast_cross_entropy_loss 1 1 3 [[[(5:ℝ), 6, 7], [8, 9, 10]]] [[-100, -100]] = some 0 :=
  ⟨by decide, all_ignored_no_error 1 1 3 [[[(5:ℝ), 6, 7], [8, 9, 10]]] [[-100, -100]] (by decide)⟩

end UnslothCE
